import Mathlib

/-!
Verification of the lazy-graph execution core of the repository.

The definitions are shallow embeddings of the C++ sources:
the Multi-Graph Runner RunGraphs and the progress helper (RDFHelpers.cxx),
the snapshot-with-variations helpers (ROOT/RDF/Snapshot.hxx), and the
VariationsFor entry point.  Parts of the repository that only appear through
their callers or tests (the RLoopManager event loop, the varied-action
per-entry driver, the bitmask writer, small string utilities) are modelled
from the specification; each such definition carries a doc comment starting
with the words Modelled from the spec.
-/

namespace RDFCore

/-- A result handle as in RResultHandle: it stores a pointer to the loop
manager that owns the corresponding action.  Pointers are modelled as
natural numbers. -/
structure RResultHandle where
  fLoopManager : Nat
deriving DecidableEq

/-- Modelled from the spec: readiness of a result handle (RResultHandle
internals are not under src).  Under the at-most-once execution model a
result is ready exactly when the loop manager owning it has completed its
run, so readiness is a function of the done state of the managers. -/
def IsReady (done : Nat → Bool) (h : RResultHandle) : Bool :=
  done h.fLoopManager

/-- Ordered insertion of a loop-manager id, mimicking the std set keyed by
the fLoopManager pointer that RunGraphs builds to deduplicate handles. -/
def setInsert (x : Nat) : List Nat → List Nat
  | [] => [x]
  | y :: ys => if x < y then x :: y :: ys else if y < x then y :: setInsert x ys else y :: ys

/-- The unique loop managers referenced by a list of handles, in pointer
order: the contents of the std set built in RunGraphs from all handles. -/
def uniqueManagers (handles : List RResultHandle) : List Nat :=
  handles.foldl (fun s h => setInsert h.fLoopManager s) []

/-- One external call recorded while RunGraphs executes. -/
inductive RGCall where
  | jit (mgr : Nat) : RGCall
  | setSlotStack (mgr : Nat) (stackId : Nat) (stackSize : Nat) : RGCall
  | runLoop (mgr : Nat) (jitFlag : Bool) : RGCall
deriving DecidableEq

/-- The observable outcome of one RunGraphs call: the returned count, whether
a diagnostic was printed, the calls issued to the loop managers, the managers
whose event loop actually executed, the final done state of the managers, and
whether the runs were distributed over the thread pool. -/
structure RunGraphsOutcome where
  retVal : Nat
  warned : Bool
  calls : List RGCall
  executed : List Nat
  finalDone : Nat → Bool
  usedThreadPool : Bool

/-- One step of the loop over the unique managers in RunGraphs: the manager
receives the shared slot stack (stack id 0, sized to the thread-pool size)
and a Run call with jitting disabled; the run executes only when the manager
has not completed yet (at-most-once semantics of RLoopManager.Run, modelled
from the spec). -/
def runStep (poolSize : Nat) (acc : (Nat → Bool) × List Nat × List RGCall) (m : Nat) :
    (Nat → Bool) × List Nat × List RGCall :=
  let newCalls := acc.2.2 ++ [RGCall.setSlotStack m 0 poolSize, RGCall.runLoop m false]
  if acc.1 m then (acc.1, acc.2.1, newCalls)
  else (fun k => if k = m then true else acc.1 k, acc.2.1 ++ [m], newCalls)

/-- Shallow embedding of ROOT.RDF.RunGraphs: an empty list produces a
diagnostic and returns zero; the not-ready handles are counted and a
diagnostic is printed when some handles are already ready; if none is left to
run, zero is returned; otherwise the handles are deduplicated by loop-manager
pointer through a std set, Jit is invoked once on the first unique manager,
and every unique manager receives the one shared slot stack (sized to the
thread-pool size) and a Run call with jitting disabled.  The multithreaded
and the sequential branch issue the same per-manager calls; the mt flag
selects which branch runs them.  A Run on a manager that already completed is
a no-op (modelled from the spec, see RLoopManager.Run below). -/
def RunGraphs (mt : Bool) (done : Nat → Bool) (poolSize : Nat)
    (handles : List RResultHandle) : RunGraphsOutcome :=
  if handles.isEmpty then
    { retVal := 0, warned := true, calls := [], executed := [], finalDone := done,
      usedThreadPool := false }
  else
    let nToRun := (handles.filter (fun h => !IsReady done h)).length
    let warned := nToRun < handles.length
    if nToRun = 0 then
      { retVal := 0, warned := warned, calls := [], executed := [], finalDone := done,
        usedThreadPool := false }
    else
      let uniq := uniqueManagers handles
      let res := uniq.foldl (runStep poolSize) (done, [], [RGCall.jit (uniq.headD 0)])
      { retVal := uniq.length, warned := warned, calls := res.2.2, executed := res.2.1,
        finalDone := res.1, usedThreadPool := mt }

/-- The handle list of the frozen RunGraphs scenario: two not-ready handles
owned by manager 0 and one handle owned by manager 1. -/
def scenarioHandles : List RResultHandle :=
  [⟨0⟩, ⟨0⟩, ⟨1⟩]

/-- The manager done state of the frozen RunGraphs scenario: manager 1 has
already run, so the third handle is ready. -/
def scenarioDone : Nat → Bool :=
  fun m => m == 1

/-- The per-manager call block issued by the run loop of RunGraphs for a list
of unique managers, in order: each manager receives the shared slot stack and
one Run call with jitting disabled. -/
def callsFor (poolSize : Nat) : List Nat → List RGCall
  | [] => []
  | m :: ms => RGCall.setSlotStack m 0 poolSize :: RGCall.runLoop m false :: callsFor poolSize ms

/-- Modelled from the spec: the execution state of an RLoopManager (the event
loop implementation is not under src, only its callers are).  It records the
number of entries of the dataset, how many times the per-entry computation
executed for each entry, and whether the graph already ran. -/
structure RLoopManager where
  fNEntries : Nat
  fExecCounts : List Nat
  fHasRun : Bool
deriving DecidableEq

/-- Modelled from the spec: RLoopManager.Run runs the computation graph at
most once.  When the manager has already run, the call returns immediately
and leaves the computed results unchanged; otherwise it processes every entry
exactly once and marks the run as done. -/
def RLoopManager.Run (lm : RLoopManager) : RLoopManager :=
  if lm.fHasRun then lm
  else { lm with fExecCounts := lm.fExecCounts.map (· + 1), fHasRun := true }

/-- Modelled from the spec: the value accessor of a result handle triggers
Run on the owning loop manager before reading the merged result, so accessing
a value any number of times behaves like triggering Run that often. -/
def RLoopManager.GetValue (lm : RLoopManager) : RLoopManager :=
  lm.Run

/-- A freshly constructed loop manager over n entries: the graph has not run
and no entry has been processed. -/
def freshManager (n : Nat) : RLoopManager :=
  { fNEntries := n, fExecCounts := List.replicate n 0, fHasRun := false }

/-- The events-per-second state of ProgressHelper: the fixed-size ring buffer
fEventsPerSecondStatistics (a std array of double, modelled with rationals)
and the running write index fEventsPerSecondStatisticsIndex. -/
structure ProgressHelper where
  fEventsPerSecondStatistics : List ℚ
  fEventsPerSecondStatisticsIndex : Nat

/-- Shallow embedding of ProgressHelper.EvtPerSec: while the index is below
the buffer size, the first fEventsPerSecondStatisticsIndex entries are
averaged; afterwards the whole buffer is averaged. -/
def ProgressHelper.EvtPerSec (p : ProgressHelper) : ℚ :=
  if p.fEventsPerSecondStatisticsIndex < p.fEventsPerSecondStatistics.length then
    (p.fEventsPerSecondStatistics.take p.fEventsPerSecondStatisticsIndex).sum /
      (p.fEventsPerSecondStatisticsIndex : ℚ)
  else
    p.fEventsPerSecondStatistics.sum / (p.fEventsPerSecondStatistics.length : ℚ)

/-- The divisor used by the division in EvtPerSec, branch by branch. -/
def ProgressHelper.EvtPerSecDivisor (p : ProgressHelper) : Nat :=
  if p.fEventsPerSecondStatisticsIndex < p.fEventsPerSecondStatistics.length then
    p.fEventsPerSecondStatisticsIndex
  else
    p.fEventsPerSecondStatistics.length

/-- Shallow embedding of the ring-buffer update in
ProgressHelper.RecordEvtCountAndTime: the new events-per-second sample is
stored at the index modulo the buffer size and the index is incremented. -/
def ProgressHelper.RecordEvtCountAndTime (p : ProgressHelper) (sample : ℚ) : ProgressHelper :=
  { p with
    fEventsPerSecondStatistics := p.fEventsPerSecondStatistics.set
      (p.fEventsPerSecondStatisticsIndex % p.fEventsPerSecondStatistics.length) sample,
    fEventsPerSecondStatisticsIndex := p.fEventsPerSecondStatisticsIndex + 1 }

/-- The loop-manager and action state observed by VariationsFor: jitting
status, number of event-loop executions, number of source entries traversed,
whether the varied action has been constructed and injected, the dataset size
and whether the loop already ran. -/
structure VarForState where
  jitted : Bool
  loopRuns : Nat
  entriesTraversed : Nat
  variedActionMade : Bool
  nEntries : Nat
  hasRun : Bool
deriving DecidableEq

/-- Shallow embedding of ROOT.RDF.Experimental.VariationsFor applied to a
snapshot result: it jits the owning loop manager, constructs and injects the
varied action exactly when at least one variation is registered, and returns
a new result pointer; it neither runs the event loop nor touches the source
data. -/
def VariationsFor (nVariations : Nat) (st : VarForState) : VarForState :=
  let st1 := { st with jitted := true }
  if 0 < nVariations then { st1 with variedActionMade := true } else st1

/-- Modelled from the spec: the first access to the returned result handle
triggers the single run, which traverses each source entry once; accesses
after the run are no-ops (the run machinery is not under src, only its
callers are). -/
def AccessResult (st : VarForState) : VarForState :=
  if st.hasRun then st
  else { st with hasRun := true, loopRuns := st.loopRuns + 1,
                 entriesTraversed := st.entriesTraversed + st.nEntries }

/-- A row of the shared output tree: for every variation (the nominal one
first), the column values written for the entry. -/
abbrev SnapRow := List (List Int)

/-- The shared state of the snapshot helpers with variations: the number of
output columns, one branch-address block per variation (each block either
points at the values set by Exec for the current entry or at the empty
instances installed by ResetBranchAddressToEmtpyInstance), and the rows of
the one shared output tree. -/
structure SnapState where
  nCols : Nat
  addrs : List (List Int)
  rows : List SnapRow

/-- The empty instance of the output branches of one helper: value
initialisation gives the type-default (zero for fundamental types), one per
column. -/
def emptyInstance (nCols : Nat) : List Int :=
  List.replicate nCols 0

/-- Shallow embedding of Exec of one snapshot helper: SetBranches points the
branch addresses of the helper of variation vIdx at the values of the current
entry. -/
def SnapExec (st : SnapState) (vIdx : Nat) (values : List Int) : SnapState :=
  { st with addrs := st.addrs.set vIdx values }

/-- Shallow embedding of PartialUpdate of the nominal helper: the shared tree
is filled exactly once, then every branch of every helper registered in
fBranchDataToClear is reset to its empty instance. -/
def SnapPartialUpdate (st : SnapState) : SnapState :=
  { st with rows := st.rows ++ [st.addrs],
            addrs := List.replicate st.addrs.length (emptyInstance st.nCols) }

/-- One entry as seen by the varied snapshot action: for every variation,
whether the entry passed all filters under that variation and the column
values that its Exec would write. -/
structure SnapEntry where
  passes : List Bool
  values : List (List Int)

/-- Modelled from the spec: the per-entry driver of the varied action
(RVariedAction is not under src, only Snapshot.hxx is).  For every variation
whose filters pass for the entry, the Exec of the corresponding helper runs;
then the PartialUpdate of the nominal helper fills the shared tree exactly
once for the entry. -/
def processEntry (st : SnapState) (e : SnapEntry) : SnapState :=
  SnapPartialUpdate
    ((List.range st.addrs.length).foldl
      (fun s v => if e.passes.getD v false then SnapExec s v (e.values.getD v []) else s) st)

/-- Processing of a list of entries, in order. -/
def processEntries (st : SnapState) (es : List SnapEntry) : SnapState :=
  es.foldl processEntry st

/-- The inner loop of processEntry, exposed for reasoning: the Exec calls of
the helpers of the first n variations, restricted to the passing ones. -/
def fillFold (e : SnapEntry) (n : Nat) (st : SnapState) : SnapState :=
  (List.range n).foldl
    (fun s v => if e.passes.getD v false then SnapExec s v (e.values.getD v []) else s) st

/-- The snapshot state right after construction of the nominal helper and of
one varied helper per variation tag: every branch points at its empty
instance and the tree holds no row. -/
def initialSnapState (nVars nCols : Nat) : SnapState :=
  { nCols := nCols, addrs := List.replicate nVars (emptyInstance nCols), rows := [] }

/-- The row that the shared tree receives for one entry: the values of the
entry for every variation that passed its filters, the empty instance for
every variation that failed. -/
def expectedRow (nVars nCols : Nat) (e : SnapEntry) : SnapRow :=
  (List.range nVars).map
    (fun v => if e.passes.getD v false then e.values.getD v [] else emptyInstance nCols)

/-- Branch, column, file and variation names, as lists of characters. -/
abbrev BName := List Char

/-- Modelled from the spec: ReplaceDotWithUnderscore of the RDF utilities
(the helper is not under src, only its callers are): every dot of a name is
replaced by an underscore, as its name says. -/
def ReplaceDotWithUnderscore (s : BName) : BName :=
  s.map (fun c => if c = '.' then '_' else c)

/-- The colon replacement performed by CreateOutputBranch before the output
branch is created. -/
def replaceColonWithUnderscore (s : BName) : BName :=
  s.map (fun c => if c = ':' then '_' else c)

/-- One created output branch: its final name and its stored type.  Type
tags stand in for C++ types; the stored type of a branch is the column type
of the class template instantiation that created it. -/
structure OutBranch where
  name : BName
  typeTag : Nat
deriving DecidableEq

/-- The state of one SnapshotHelperWithVariations relevant to branch
creation: the output branch names (after dot replacement), the column types
of the template instantiation, and the created branches. -/
structure SnapshotHelperState where
  fOutputBranchNames : List BName
  colTypes : List Nat
  branches : List OutBranch

/-- Shallow embedding of CreateOutputBranches: one branch per column, named
after the output branch name with colons replaced by underscores, storing
the column type. -/
def CreateOutputBranches (names : List BName) (colTypes : List Nat) : List OutBranch :=
  List.zipWith (fun n t => OutBranch.mk (replaceColonWithUnderscore n) t) names colTypes

/-- Shallow embedding of the public constructor of
SnapshotHelperWithVariations: the output branch names are the requested
column names with dots replaced by underscores, and one output branch is
created per column. -/
def mkNominalHelper (bnames : List BName) (colTypes : List Nat) : SnapshotHelperState :=
  { fOutputBranchNames := bnames.map ReplaceDotWithUnderscore,
    colTypes := colTypes,
    branches := CreateOutputBranches (bnames.map ReplaceDotWithUnderscore) colTypes }

/-- Shallow embedding of MakeNew together with the private variation
constructor of SnapshotHelperWithVariations: every nominal output branch
name receives two underscores and the variation name, dots are replaced by
underscores again, and the branches are created with the same column types
as the nominal helper (the same template instantiation). -/
def MakeNew (other : SnapshotHelperState) (variation : BName) : SnapshotHelperState :=
  let names :=
    (other.fOutputBranchNames.map (fun originalName => originalName ++ '_' :: '_' :: variation)).map
      ReplaceDotWithUnderscore
  { fOutputBranchNames := names,
    colTypes := other.colTypes,
    branches := CreateOutputBranches names other.colTypes }

/-- The naming convention stated by the claim: the column name followed by
two underscores and the variation tag, with dots and colons replaced by
underscores. -/
def conventionName (column variation : BName) : BName :=
  replaceColonWithUnderscore (ReplaceDotWithUnderscore (column ++ '_' :: '_' :: variation))

/-- Modelled from the spec: a list of bits packed little-endian into one
machine word. -/
def bitsToNat : List Bool → Nat
  | [] => 0
  | b :: bs => (if b then 1 else 0) + 2 * bitsToNat bs

/-- Modelled from the spec: the per-entry bitmask words of the snapshot with
more than 64 variations (the bitmask writer is not under src, only the test
WritingOfBitmask is).  The pass flags of the variations are chained into
fixed-width 64-bit segments; bit k mod 64 of word k div 64 records whether
variation k passed its cuts for this entry. -/
def maskWords (passes : List Bool) : List Nat :=
  (List.range ((passes.length + 63) / 64)).map
    (fun i => bitsToNat ((passes.drop (i * 64)).take 64))

/-- Modelled from the spec: the name of bitmask branch i of a given tree. -/
def maskBranchName (treename : BName) (i : Nat) : BName :=
  "R_rdf_mask_".data ++ treename ++ '_' :: (toString i).data

/-- Modelled from the spec: the name of the side table stored next to the
tree. -/
def branchToBitmaskMappingName (treename : BName) : BName :=
  "R_rdf_branchToBitmaskMapping_".data ++ treename

/-- Modelled from the spec: the side-table entry of variation slot k, the
pair of the bitmask branch holding its bit and the bit index inside that
branch. -/
def bitmaskMapping (treename : BName) (k : Nat) : BName × Nat :=
  (maskBranchName treename (k / 64), k % 64)

/-- What remains observable of a successfully constructed snapshot action:
the number of entries already processed (zero at construction time). -/
structure SnapshotCtorResult where
  entriesProcessed : Nat
deriving DecidableEq

/-- Shallow embedding of the file-opening step of the
SnapshotHelperWithVariations constructor: when TFile.Open fails, a runtime
error naming the output file is thrown from the constructor, before any
entry is processed. -/
def snapshotConstruct (openSucceeds : Bool) (filename : BName) :
    Except BName SnapshotCtorResult :=
  if openSucceeds then Except.ok { entriesProcessed := 0 }
  else Except.error ("Snapshot: could not create output file ".data ++ filename)

/-- The FileHandle shared by the snapshot helpers: the output tree with its
in-memory rows (when still open), the file name, the directory name and the
output loop manager to connect at destruction. -/
structure FileHandleState where
  fTree : Option (BName × List SnapRow)
  fFileName : BName
  fDirectoryName : BName
  fOutputLoopManager : Option Nat

/-- Modelled from the spec: the external file store (the on-disk format and
the I/O layer are external collaborators).  Writing persists the rows of a
tree under the pair of file name and tree path; reading looks the pair up. -/
structure FileStore where
  entries : List ((BName × BName) × List SnapRow)

/-- Persist rows under a file name and tree path. -/
def FileStore.write (fs : FileStore) (key : BName × BName) (rows : List SnapRow) : FileStore :=
  { entries := (key, rows) :: fs.entries }

/-- Read back the rows stored under a file name and tree path. -/
def FileStore.read (fs : FileStore) (key : BName × BName) : Option (List SnapRow) :=
  (fs.entries.find? (fun e => e.1 == key)).map (fun e => e.2)

/-- The observable effect of destroying the FileHandle: the updated file
store, the data source of every loop manager, and the AutoSave calls that
were made (tree name and option string). -/
structure FileHandleDtorOutcome where
  store : FileStore
  dataSourceOf : Nat → Option (BName × BName)
  autoSaveCalls : List (BName × BName)

/-- Shallow embedding of the FileHandle destructor: when a tree is still
present, its contents are flushed with AutoSave flushbaskets, the tree path
receives the directory prefix when one was set, tree and file are closed,
and the output loop manager (when present) gets a data source pointing at
the just-written tree and file. -/
def destructFileHandle (fh : FileHandleState) (fs : FileStore)
    (ds : Nat → Option (BName × BName)) : FileHandleDtorOutcome :=
  match fh.fTree with
  | none => { store := fs, dataSourceOf := ds, autoSaveCalls := [] }
  | some (tname, rows) =>
    let treepath := if fh.fDirectoryName.isEmpty then tname else fh.fDirectoryName ++ '/' :: tname
    let fs1 := fs.write (fh.fFileName, treepath) rows
    let ds1 := match fh.fOutputLoopManager with
      | none => ds
      | some mgr => fun m => if m = mgr then some (treepath, fh.fFileName) else ds m
    { store := fs1, dataSourceOf := ds1, autoSaveCalls := [(tname, "flushbaskets".data)] }

/-- Modelled from the spec: releasing one reference of the shared FileHandle
(as Finalize does by resetting its shared pointer) runs the destructor only
when the released reference is the last one. -/
def releaseHandleRef (refCount : Nat) (fh : FileHandleState) (fs : FileStore)
    (ds : Nat → Option (BName × BName)) : Nat × Option FileHandleDtorOutcome :=
  if refCount = 1 then (0, some (destructFileHandle fh fs ds))
  else (refCount - 1, none)

end RDFCore

namespace RDFCore

/-- Claim C1 as stated is refuted here: in the scenario with three handles,
two not ready and owned by one manager plus one ready handle owned by another
manager, RunGraphs executes exactly one graph but returns 2, not 1, because
the returned count is the size of the set of unique managers over all
handles, ready ones included. -/
theorem runGraphs_scenario_returns_two :
    (RunGraphs false scenarioDone 4 scenarioHandles).executed.length = 1 ∧
    (RunGraphs false scenarioDone 4 scenarioHandles).retVal = 2 := by
  decide

/-- Claim C1, amended: an empty handle list produces a diagnostic and returns
zero; if every handle is already ready, zero is returned and nothing runs;
otherwise RunGraphs returns the number of unique loop managers among all
handles, ready ones included, which can exceed the number of graphs actually
executed.  In the frozen scenario (two not-ready handles on one manager, one
ready handle on another) exactly one unique graph executes but the return
value is 2. -/
theorem runGraphs_count_amended (mt : Bool) (done : Nat → Bool) (ps : Nat)
    (handles : List RResultHandle) :
    (handles = [] →
      (RunGraphs mt done ps handles).retVal = 0 ∧
      (RunGraphs mt done ps handles).warned = true ∧
      (RunGraphs mt done ps handles).executed = []) ∧
    ((∀ h ∈ handles, IsReady done h = true) →
      (RunGraphs mt done ps handles).retVal = 0 ∧
      (RunGraphs mt done ps handles).executed = []) ∧
    ((∃ h ∈ handles, IsReady done h = false) →
      (RunGraphs mt done ps handles).retVal = (uniqueManagers handles).length) ∧
    ((RunGraphs mt scenarioDone 4 scenarioHandles).executed.length = 1 ∧
      (RunGraphs mt scenarioDone 4 scenarioHandles).retVal = 2) := by
  refine ⟨?_, ?_, ?_, ?_⟩
  · rintro rfl
    simp [RunGraphs]
  · intro hall
    rcases handles with _ | ⟨h0, hs⟩
    · simp [RunGraphs]
    · have hfilter : (h0 :: hs).filter (fun h => !IsReady done h) = [] := by
        rw [List.filter_eq_nil_iff]
        intro a ha
        simp [hall a ha]
      simp [RunGraphs, hfilter]
  · rintro ⟨h, hmem, hnr⟩
    have hne : handles.isEmpty = false := by
      cases handles
      · exact absurd hmem (List.not_mem_nil h)
      · rfl
    have hmemf : h ∈ handles.filter (fun x => !IsReady done x) :=
      List.mem_filter.2 ⟨hmem, by simp [hnr]⟩
    have hzero : ¬ (handles.filter (fun x => !IsReady done x)).length = 0 :=
      Nat.pos_iff_ne_zero.mp (List.length_pos_of_mem hmemf)
    simp [RunGraphs, hne, hzero]
  · cases mt <;> exact ⟨by decide, by decide⟩

/-- Witness for the amended claim C1: the three behaviours at concrete
inputs, derived by applying the theorem itself. -/
theorem runGraphs_count_amended_witness :
    (RunGraphs false scenarioDone 4 []).retVal = 0 ∧
    (RunGraphs false scenarioDone 4 [⟨1⟩]).retVal = 0 ∧
    (RunGraphs false scenarioDone 4 scenarioHandles).retVal =
      (uniqueManagers scenarioHandles).length ∧
    (RunGraphs false scenarioDone 4 scenarioHandles).retVal = 2 := by
  refine ⟨((runGraphs_count_amended false scenarioDone 4 []).1 rfl).1, ?_, ?_, ?_⟩
  · exact ((runGraphs_count_amended false scenarioDone 4 [⟨1⟩]).2.1 (by decide)).1
  · exact (runGraphs_count_amended false scenarioDone 4 scenarioHandles).2.2.1
      ⟨⟨0⟩, by decide, by decide⟩
  · exact (runGraphs_count_amended false scenarioDone 4 scenarioHandles).2.2.2.2

/-- Helper: membership in the ordered-set insertion. -/
theorem mem_setInsert (x a : Nat) (l : List Nat) :
    a ∈ setInsert x l ↔ a = x ∨ a ∈ l := by
  induction l with
  | nil => simp [setInsert]
  | cons y ys ih =>
      unfold setInsert
      by_cases h1 : x < y
      · simp [h1]
      · by_cases h2 : y < x
        · simp only [h1, if_false, h2, if_true, List.mem_cons, ih]
          tauto
        · have hxy : x = y := Nat.le_antisymm (Nat.le_of_not_lt h2) (Nat.le_of_not_lt h1)
          subst hxy
          simp [h1, h2]

/-- Helper: the ordered-set insertion preserves strict sortedness. -/
theorem setInsert_sorted (x : Nat) (l : List Nat) (h : l.Sorted (· < ·)) :
    (setInsert x l).Sorted (· < ·) := by
  induction l with
  | nil => simp [setInsert]
  | cons y ys ih =>
      rw [List.sorted_cons] at h
      unfold setInsert
      by_cases h1 : x < y
      · rw [if_pos h1, List.sorted_cons]
        refine ⟨?_, List.sorted_cons.mpr h⟩
        intro b hb
        rcases List.mem_cons.mp hb with rfl | hb2
        · exact h1
        · exact Nat.lt_trans h1 (h.1 b hb2)
      · by_cases h2 : y < x
        · rw [if_neg h1, if_pos h2, List.sorted_cons]
          refine ⟨?_, ih h.2⟩
          intro b hb
          rcases (mem_setInsert x b ys).mp hb with rfl | hb2
          · exact h2
          · exact h.1 b hb2
        · rw [if_neg h1, if_neg h2, List.sorted_cons]
          exact h

/-- Helper: the unique-manager list of RunGraphs is strictly sorted. -/
theorem uniqueManagers_sorted (handles : List RResultHandle) :
    (uniqueManagers handles).Sorted (· < ·) := by
  have aux : ∀ (hs : List RResultHandle) (acc : List Nat), acc.Sorted (· < ·) →
      (hs.foldl (fun s h => setInsert h.fLoopManager s) acc).Sorted (· < ·) := by
    intro hs
    induction hs with
    | nil => intro acc hacc; exact hacc
    | cons h0 rest ih =>
        intro acc hacc
        exact ih _ (setInsert_sorted _ _ hacc)
  exact aux handles [] (by simp)

/-- Helper: the unique-manager list has no duplicates. -/
theorem uniqueManagers_nodup (handles : List RResultHandle) :
    (uniqueManagers handles).Nodup :=
  (uniqueManagers_sorted handles).nodup

/-- Helper: the calls accumulated by the run loop of RunGraphs are the
initial calls followed by one block per manager. -/
theorem foldl_runStep_calls (ps : Nat) (l : List Nat)
    (acc : (Nat → Bool) × List Nat × List RGCall) :
    (l.foldl (runStep ps) acc).2.2 = acc.2.2 ++ callsFor ps l := by
  induction l generalizing acc with
  | nil => simp [callsFor]
  | cons m ms ih =>
      rw [List.foldl_cons, ih]
      have hstep : (runStep ps acc m).2.2
          = acc.2.2 ++ [RGCall.setSlotStack m 0 ps, RGCall.runLoop m false] := by
        unfold runStep
        by_cases h : acc.1 m <;> simp [h]
      rw [hstep]
      simp [callsFor]

/-- Helper: membership in the per-manager call blocks. -/
theorem mem_callsFor (ps : Nat) (l : List Nat) (c : RGCall) :
    c ∈ callsFor ps l ↔
      ∃ m ∈ l, c = RGCall.setSlotStack m 0 ps ∨ c = RGCall.runLoop m false := by
  induction l with
  | nil => simp [callsFor]
  | cons a as ih =>
      simp only [callsFor, List.mem_cons, ih]
      constructor
      · rintro (rfl | rfl | ⟨m, hm, hc⟩)
        · exact ⟨a, Or.inl rfl, Or.inl rfl⟩
        · exact ⟨a, Or.inl rfl, Or.inr rfl⟩
        · exact ⟨m, Or.inr hm, hc⟩
      · rintro ⟨m, (rfl | hm), (rfl | rfl)⟩
        · exact Or.inl rfl
        · exact Or.inr (Or.inl rfl)
        · exact Or.inr (Or.inr ⟨m, hm, Or.inl rfl⟩)
        · exact Or.inr (Or.inr ⟨m, hm, Or.inr rfl⟩)

/-- Helper: each manager contributes exactly one Run call with jitting
disabled to the call blocks. -/
theorem count_runLoop_callsFor (ps : Nat) (l : List Nat) (m : Nat) :
    (callsFor ps l).count (RGCall.runLoop m false) = l.count m := by
  induction l with
  | nil => simp [callsFor]
  | cons a as ih =>
      simp only [callsFor, List.count_cons, ih]
      by_cases h : a = m <;> simp [h]

/-- Helper: each manager contributes exactly one slot-stack assignment to the
call blocks. -/
theorem count_setSlotStack_callsFor (ps : Nat) (l : List Nat) (m : Nat) :
    (callsFor ps l).count (RGCall.setSlotStack m 0 ps) = l.count m := by
  induction l with
  | nil => simp [callsFor]
  | cons a as ih =>
      simp only [callsFor, List.count_cons, ih]
      by_cases h : a = m <;> simp [h]

/-- Helper: no Jit call appears among the per-manager call blocks. -/
theorem jit_not_mem_callsFor (ps : Nat) (l : List Nat) (m : Nat) :
    RGCall.jit m ∉ callsFor ps l := by
  intro hmem
  rcases (mem_callsFor ps l _).mp hmem with ⟨a, _, h | h⟩ <;> exact RGCall.noConfusion h

/-- Helper: the call list of RunGraphs on a non-empty list with at least one
not-ready handle is one Jit call on the first unique manager followed by the
per-manager call blocks; the thread pool is used exactly when implicit
multithreading is on. -/
theorem runGraphs_calls (mt : Bool) (done : Nat → Bool) (ps : Nat)
    (handles : List RResultHandle)
    (hne : handles ≠ [])
    (hun : ∃ h ∈ handles, IsReady done h = false) :
    (RunGraphs mt done ps handles).calls
      = RGCall.jit ((uniqueManagers handles).headD 0) :: callsFor ps (uniqueManagers handles)
    ∧ (RunGraphs mt done ps handles).usedThreadPool = mt := by
  obtain ⟨h, hmem, hnr⟩ := hun
  have hempty : handles.isEmpty = false := by
    cases handles
    · exact absurd rfl hne
    · rfl
  have hmemf : h ∈ handles.filter (fun x => !IsReady done x) :=
    List.mem_filter.2 ⟨hmem, by simp [hnr]⟩
  have hzero : ¬ (handles.filter (fun x => !IsReady done x)).length = 0 :=
    Nat.pos_iff_ne_zero.mp (List.length_pos_of_mem hmemf)
  constructor
  · simp [RunGraphs, hempty, hzero, foldl_runStep_calls]
  · simp [RunGraphs, hempty, hzero]

/-- Claim C4: with a non-empty handle list containing at least one not-ready
handle, RunGraphs jits exactly once (a single Jit call, on the first unique
manager); every unique loop manager receives exactly one Run call, always
with jitting disabled, and exactly one slot-stack assignment; every
slot-stack assignment installs the one shared stack (id 0) sized to the
thread-pool size; and the runs go through the thread pool exactly when
implicit multithreading is enabled, sequentially otherwise. -/
theorem runGraphs_jit_once_run_each (mt : Bool) (done : Nat → Bool) (ps : Nat)
    (handles : List RResultHandle)
    (hne : handles ≠ [])
    (hun : ∃ h ∈ handles, IsReady done h = false) :
    (RunGraphs mt done ps handles).calls.count
        (RGCall.jit ((uniqueManagers handles).headD 0)) = 1 ∧
    (∀ m, RGCall.jit m ∈ (RunGraphs mt done ps handles).calls →
        m = (uniqueManagers handles).headD 0) ∧
    (∀ m ∈ uniqueManagers handles,
        (RunGraphs mt done ps handles).calls.count (RGCall.runLoop m false) = 1) ∧
    (∀ m b, RGCall.runLoop m b ∈ (RunGraphs mt done ps handles).calls → b = false) ∧
    (∀ m ∈ uniqueManagers handles,
        (RunGraphs mt done ps handles).calls.count (RGCall.setSlotStack m 0 ps) = 1) ∧
    (∀ m sid sz, RGCall.setSlotStack m sid sz ∈ (RunGraphs mt done ps handles).calls →
        sid = 0 ∧ sz = ps) ∧
    (RunGraphs mt done ps handles).usedThreadPool = mt := by
  obtain ⟨hcalls, hmt⟩ := runGraphs_calls mt done ps handles hne hun
  rw [hcalls]
  have hnodup := uniqueManagers_nodup handles
  refine ⟨?_, ?_, ?_, ?_, ?_, ?_, hmt⟩
  · rw [List.count_cons_self, List.count_eq_zero.mpr (jit_not_mem_callsFor ps _ _)]
  · intro m hm
    rcases List.mem_cons.mp hm with heq | hmem2
    · exact RGCall.jit.inj heq
    · exact absurd hmem2 (jit_not_mem_callsFor ps _ m)
  · intro m hm
    rw [List.count_cons_of_ne (by simp), count_runLoop_callsFor]
    exact List.count_eq_one_of_mem hnodup hm
  · intro m b hm
    rcases List.mem_cons.mp hm with heq | hmem2
    · exact RGCall.noConfusion heq
    · rcases (mem_callsFor ps _ _).mp hmem2 with ⟨a, _, h1 | h1⟩
      · exact RGCall.noConfusion h1
      · exact (RGCall.runLoop.inj h1).2
  · intro m hm
    rw [List.count_cons_of_ne (by simp), count_setSlotStack_callsFor]
    exact List.count_eq_one_of_mem hnodup hm
  · intro m sid sz hm
    rcases List.mem_cons.mp hm with heq | hmem2
    · exact RGCall.noConfusion heq
    · rcases (mem_callsFor ps _ _).mp hmem2 with ⟨a, _, h1 | h1⟩
      · exact ⟨(RGCall.setSlotStack.inj h1).2.1, (RGCall.setSlotStack.inj h1).2.2⟩
      · exact RGCall.noConfusion h1

/-- Witness for claim C4 at the concrete scenario inputs, applying the
theorem with its hypotheses discharged there. -/
theorem runGraphs_jit_once_run_each_witness :
    (RunGraphs true scenarioDone 4 scenarioHandles).calls.count
        (RGCall.jit ((uniqueManagers scenarioHandles).headD 0)) = 1 ∧
    (RunGraphs true scenarioDone 4 scenarioHandles).calls.count (RGCall.runLoop 0 false) = 1 ∧
    (RunGraphs true scenarioDone 4 scenarioHandles).usedThreadPool = true := by
  obtain ⟨h1, _, h3, _, _, _, h7⟩ :=
    runGraphs_jit_once_run_each true scenarioDone 4 scenarioHandles
      (by decide) ⟨⟨0⟩, by decide, by decide⟩
  exact ⟨h1, h3 0 (by decide), h7⟩

/-- Helper: Run is idempotent on loop managers. -/
theorem run_run (lm : RLoopManager) : lm.Run.Run = lm.Run := by
  unfold RLoopManager.Run
  by_cases h : lm.fHasRun <;> simp [h]

/-- Helper: iterating Run at least once equals running once. -/
theorem run_iterate (lm : RLoopManager) (k : Nat) (hk : 1 ≤ k) :
    RLoopManager.Run^[k] lm = lm.Run := by
  induction k with
  | zero => exact absurd hk (by decide)
  | succ n ih =>
      rcases Nat.eq_zero_or_pos n with h1 | h1
      · subst h1
        simp
      · rw [Function.iterate_succ_apply', ih h1, run_run]

/-- Claim C3: a loop manager runs its computation graph at most once.  After
one successful Run, any further trigger (directly or through the value
accessor of a result handle) is a no-op leaving the computed results
unchanged, and the per-entry computation executes exactly once per entry no
matter how many times Run is triggered. -/
theorem loopManager_runs_at_most_once (n k : Nat) (hk : 1 ≤ k) :
    RLoopManager.Run^[k] (freshManager n) = (freshManager n).Run ∧
    (RLoopManager.Run^[k] (freshManager n)).fExecCounts = List.replicate n 1 ∧
    ((freshManager n).Run).GetValue = (freshManager n).Run ∧
    ((freshManager n).Run).fHasRun = true := by
  refine ⟨run_iterate _ k hk, ?_, ?_, ?_⟩
  · rw [run_iterate _ k hk]
    simp [freshManager, RLoopManager.Run]
  · exact run_run _
  · simp [freshManager, RLoopManager.Run]

/-- Witness for claim C3 at a concrete manager with 3 entries and 5 triggers. -/
theorem loopManager_runs_at_most_once_witness :
    RLoopManager.Run^[5] (freshManager 3) = (freshManager 3).Run ∧
    (RLoopManager.Run^[5] (freshManager 3)).fExecCounts = List.replicate 3 1 ∧
    ((freshManager 3).Run).GetValue = (freshManager 3).Run ∧
    ((freshManager 3).Run).fHasRun = true :=
  loopManager_runs_at_most_once 3 5 (by decide)

/-- Helper: iterating an idempotent function at least once equals applying it
once. -/
theorem iterate_of_idem {α : Type} (f : α → α) (hf : ∀ x, f (f x) = f x)
    (x : α) (k : Nat) (hk : 1 ≤ k) :
    f^[k] x = f x := by
  induction k with
  | zero => exact absurd hk (by decide)
  | succ n ih =>
      rcases Nat.eq_zero_or_pos n with h1 | h1
      · subst h1
        simp
      · rw [Function.iterate_succ_apply', ih h1, hf]

/-- Claim C9: once at least one events-per-second sample has been recorded
(the index is at least one, which holds after any call of
RecordEvtCountAndTime), EvtPerSec returns the arithmetic mean of the first
min(index, capacity) ring-buffer entries and its divisor is positive, so the
division is well defined; with index zero the divisor is zero, which is why
the precondition of at least one recorded sample is needed. -/
theorem evtPerSec_is_mean (p : ProgressHelper)
    (hlen : 0 < p.fEventsPerSecondStatistics.length)
    (hidx : 1 ≤ p.fEventsPerSecondStatisticsIndex) :
    p.EvtPerSec =
      (p.fEventsPerSecondStatistics.take
          (min p.fEventsPerSecondStatisticsIndex p.fEventsPerSecondStatistics.length)).sum /
        ((min p.fEventsPerSecondStatisticsIndex p.fEventsPerSecondStatistics.length : Nat) : ℚ) ∧
    0 < p.EvtPerSecDivisor ∧
    p.EvtPerSecDivisor
      = min p.fEventsPerSecondStatisticsIndex p.fEventsPerSecondStatistics.length ∧
    (∀ q : ProgressHelper, ∀ v : ℚ,
      1 ≤ (q.RecordEvtCountAndTime v).fEventsPerSecondStatisticsIndex) ∧
    (∀ q : ProgressHelper, q.fEventsPerSecondStatisticsIndex = 0 →
      0 < q.fEventsPerSecondStatistics.length → q.EvtPerSecDivisor = 0) := by
  refine ⟨?_, ?_, ?_, ?_, ?_⟩
  · by_cases h : p.fEventsPerSecondStatisticsIndex < p.fEventsPerSecondStatistics.length
    · rw [Nat.min_eq_left (Nat.le_of_lt h)]
      simp [ProgressHelper.EvtPerSec, h]
    · have hle : p.fEventsPerSecondStatistics.length ≤ p.fEventsPerSecondStatisticsIndex :=
        Nat.le_of_not_lt h
      rw [Nat.min_eq_right hle]
      simp [ProgressHelper.EvtPerSec, h, List.take_length]
  · unfold ProgressHelper.EvtPerSecDivisor
    by_cases h : p.fEventsPerSecondStatisticsIndex < p.fEventsPerSecondStatistics.length
    · simpa [h] using Nat.lt_of_lt_of_le Nat.zero_lt_one hidx
    · simpa [h] using hlen
  · unfold ProgressHelper.EvtPerSecDivisor
    by_cases h : p.fEventsPerSecondStatisticsIndex < p.fEventsPerSecondStatistics.length
    · simp [h, Nat.min_eq_left (Nat.le_of_lt h)]
    · simp [h, Nat.min_eq_right (Nat.le_of_not_lt h)]
  · intro q v
    simp [ProgressHelper.RecordEvtCountAndTime]
  · intro q h0 hq
    simp [ProgressHelper.EvtPerSecDivisor, h0, hq]

/-- Witness for claim C9 at a concrete helper with a buffer of capacity 3 and
two recorded samples, one of them produced by RecordEvtCountAndTime. -/
theorem evtPerSec_is_mean_witness :
    (ProgressHelper.mk [4, 6, 0] 2).EvtPerSec
      = (([4, 6, 0] : List ℚ).take (min 2 3)).sum / ((min 2 3 : Nat) : ℚ) ∧
    0 < (ProgressHelper.mk [4, 6, 0] 2).EvtPerSecDivisor := by
  obtain ⟨h1, h2, -⟩ :=
    evtPerSec_is_mean (ProgressHelper.mk [4, 6, 0] 2) (by decide) (by decide)
  exact ⟨h1, h2⟩

/-- Helper: AccessResult is idempotent. -/
theorem accessResult_accessResult (st : VarForState) :
    AccessResult (AccessResult st) = AccessResult st := by
  unfold AccessResult
  by_cases h : st.hasRun <;> simp [h]

/-- Claim C5: VariationsFor on a snapshot result jits the owning loop
manager and constructs the varied action exactly when at least one variation
is registered, while leaving the event-loop count, the number of traversed
source entries and the run status untouched; the nominal and varied outputs
are produced by the single run triggered by the first access to the returned
handle, which traverses each source entry once no matter how many accesses
follow. -/
theorem variationsFor_no_event_loop (n : Nat) (st : VarForState) (k : Nat)
    (hk : 1 ≤ k) (hfresh : st.hasRun = false) (hruns : st.loopRuns = 0)
    (htrav : st.entriesTraversed = 0) :
    (VariationsFor n st).loopRuns = st.loopRuns ∧
    (VariationsFor n st).entriesTraversed = st.entriesTraversed ∧
    (VariationsFor n st).hasRun = st.hasRun ∧
    (VariationsFor n st).jitted = true ∧
    (VariationsFor n st).variedActionMade = (st.variedActionMade || decide (0 < n)) ∧
    (AccessResult^[k] (VariationsFor n st)).loopRuns = 1 ∧
    (AccessResult^[k] (VariationsFor n st)).entriesTraversed = st.nEntries := by
  have hiter : AccessResult^[k] (VariationsFor n st) = AccessResult (VariationsFor n st) :=
    iterate_of_idem AccessResult accessResult_accessResult _ k hk
  rw [hiter]
  by_cases hn : 0 < n <;>
    simp [VariationsFor, AccessResult, hn, hfresh, hruns, htrav]

/-- Witness for claim C5 at a concrete fresh state with 2 registered
variations, 10 entries and 3 accesses to the returned handle. -/
theorem variationsFor_no_event_loop_witness :
    (VariationsFor 2 (VarForState.mk false 0 0 false 10 false)).loopRuns = 0 ∧
    (VariationsFor 2 (VarForState.mk false 0 0 false 10 false)).jitted = true ∧
    (AccessResult^[3] (VariationsFor 2 (VarForState.mk false 0 0 false 10 false))).loopRuns = 1 ∧
    (AccessResult^[3]
        (VariationsFor 2 (VarForState.mk false 0 0 false 10 false))).entriesTraversed = 10 := by
  obtain ⟨h1, -, -, h4, -, h6, h7⟩ :=
    variationsFor_no_event_loop 2 (VarForState.mk false 0 0 false 10 false) 3
      (by decide) rfl rfl rfl
  exact ⟨h1, h4, h6, h7⟩

/-- Helper: getD on a set list at the written index. -/
theorem getD_set_eq {α : Type} (l : List α) (i : Nat) (a d : α) (h : i < l.length) :
    (l.set i a).getD i d = a := by
  rw [List.getD_eq_getElem _ _ (by simpa using h), List.getElem_set]
  simp

/-- Helper: getD on a set list away from the written index. -/
theorem getD_set_ne {α : Type} (l : List α) (i j : Nat) (a d : α) (h : i ≠ j) :
    (l.set i a).getD j d = l.getD j d := by
  by_cases hj : j < l.length
  · rw [List.getD_eq_getElem _ _ (by simpa using hj), List.getElem_set, if_neg h,
      List.getD_eq_getElem _ _ hj]
  · rw [List.getD_eq_default _ _ (by simpa using Nat.le_of_not_lt hj),
      List.getD_eq_default _ _ (Nat.le_of_not_lt hj)]

/-- Helper: getD on a replicate list inside its bounds. -/
theorem getD_replicate_in {α : Type} (n i : Nat) (a d : α) (h : i < n) :
    (List.replicate n a).getD i d = a := by
  rw [List.getD_eq_getElem _ _ (by simpa using h), List.getElem_replicate]

/-- Helper: full description of the Exec loop of one entry: columns, rows and
branch count are untouched, and the branch block of variation j holds the
entry values when j is reached and passes, the previous content otherwise. -/
theorem fillFold_spec (e : SnapEntry) (n : Nat) (st : SnapState) :
    (fillFold e n st).nCols = st.nCols ∧
    (fillFold e n st).rows = st.rows ∧
    (fillFold e n st).addrs.length = st.addrs.length ∧
    ∀ j, j < st.addrs.length →
      (fillFold e n st).addrs.getD j []
        = if j < n ∧ e.passes.getD j false then e.values.getD j []
          else st.addrs.getD j [] := by
  induction n with
  | zero =>
      refine ⟨rfl, rfl, rfl, ?_⟩
      intro j hj
      simp [fillFold]
  | succ n ih =>
      obtain ⟨ihc, ihr, ihl, ihget⟩ := ih
      have hstep : fillFold e (n + 1) st
          = if e.passes.getD n false
            then SnapExec (fillFold e n st) n (e.values.getD n [])
            else fillFold e n st := by
        unfold fillFold
        rw [List.range_succ, List.foldl_append]
        rfl
      by_cases hp : e.passes.getD n false
      · rw [hstep, if_pos hp]
        refine ⟨ihc, ihr, ?_, ?_⟩
        · simp [SnapExec, ihl]
        · intro j hj
          by_cases hjn : j = n
          · rw [show (SnapExec (fillFold e n st) n (e.values.getD n [])).addrs
                  = (fillFold e n st).addrs.set n (e.values.getD n []) from rfl]
            rw [hjn]
            rw [getD_set_eq _ _ _ _ (by rw [ihl, ← hjn]; exact hj)]
            rw [if_pos ⟨Nat.lt_succ_self n, hp⟩]
          · rw [show (SnapExec (fillFold e n st) n (e.values.getD n [])).addrs
                  = (fillFold e n st).addrs.set n (e.values.getD n []) from rfl]
            rw [getD_set_ne _ _ _ _ _ (fun hh => hjn hh.symm), ihget j hj]
            have hiff : j < n + 1 ↔ j < n := by
              constructor
              · intro hlt
                exact Nat.lt_of_le_of_ne (Nat.lt_succ_iff.mp hlt) hjn
              · exact fun hlt => Nat.lt_succ_of_lt hlt
            simp only [hiff]
      · rw [hstep, if_neg hp]
        refine ⟨ihc, ihr, ihl, ?_⟩
        intro j hj
        rw [ihget j hj]
        by_cases hjn : j = n
        · rw [hjn, if_neg (fun hh => hp hh.2), if_neg (fun hh => hp hh.2)]
        · have hiff : j < n + 1 ↔ j < n := by
            constructor
            · intro hlt
              exact Nat.lt_of_le_of_ne (Nat.lt_succ_iff.mp hlt) hjn
            · exact fun hlt => Nat.lt_succ_of_lt hlt
          simp only [hiff]

/-- Helper: processing one entry from a clean state appends exactly the
expected row and returns to the clean state. -/
theorem processEntry_clean (nVars nCols : Nat) (e : SnapEntry) (st : SnapState)
    (hc : st.nCols = nCols) (ha : st.addrs = List.replicate nVars (emptyInstance nCols)) :
    (processEntry st e).nCols = nCols ∧
    (processEntry st e).addrs = List.replicate nVars (emptyInstance nCols) ∧
    (processEntry st e).rows = st.rows ++ [expectedRow nVars nCols e] := by
  have hlen : st.addrs.length = nVars := by
    rw [ha, List.length_replicate]
  have hpe : processEntry st e = SnapPartialUpdate (fillFold e st.addrs.length st) := rfl
  obtain ⟨hfc, hfr, hfl, hfget⟩ := fillFold_spec e st.addrs.length st
  have haddr : (fillFold e st.addrs.length st).addrs = expectedRow nVars nCols e := by
    apply List.ext_getElem
    · rw [hfl, hlen]
      simp [expectedRow]
    · intro i h1 h2
      have hi : i < nVars := by
        rw [hfl, hlen] at h1
        exact h1
      have hleft : (fillFold e st.addrs.length st).addrs[i]
          = (fillFold e st.addrs.length st).addrs.getD i [] :=
        (List.getD_eq_getElem _ _ h1).symm
      have hright : (expectedRow nVars nCols e)[i]
          = if e.passes.getD i false then e.values.getD i [] else emptyInstance nCols := by
        simp only [expectedRow]
        rw [List.getElem_map, List.getElem_range]
      rw [hleft, hright, hfget i (by rw [hlen]; exact hi)]
      rw [ha, getD_replicate_in _ _ _ _ hi]
      simp only [List.length_replicate, hi, true_and]
  refine ⟨?_, ?_, ?_⟩
  · rw [hpe]
    simp [SnapPartialUpdate, hfc, hc]
  · rw [hpe]
    simp only [SnapPartialUpdate]
    rw [haddr, hfc, hc]
    simp [expectedRow]
  · rw [hpe]
    simp only [SnapPartialUpdate]
    rw [haddr, hfr]

/-- Helper: processing a list of entries from a clean state appends one
expected row per entry. -/
theorem processEntries_clean (nVars nCols : Nat) (es : List SnapEntry) (st : SnapState)
    (hc : st.nCols = nCols) (ha : st.addrs = List.replicate nVars (emptyInstance nCols)) :
    (processEntries st es).rows = st.rows ++ es.map (expectedRow nVars nCols) := by
  induction es generalizing st with
  | nil => simp [processEntries]
  | cons e rest ih =>
      obtain ⟨h1, h2, h3⟩ := processEntry_clean nVars nCols e st hc ha
      have hstep : processEntries st (e :: rest) = processEntries (processEntry st e) rest := rfl
      rw [hstep, ih (processEntry st e) h1 h2, h3]
      simp

/-- Claim C2: under VariationsFor, every entry contributes exactly one row to
the shared output tree (one Fill per entry); in every row, every variation
(the nominal included) is present, holding the entry values when the entry
passed all filters under that variation and the type-default empty instance
otherwise, never omitted; consequently the total row count equals the number
of processed entries and is identical between the nominal and every
variation. -/
theorem snapshot_variation_neutrality (nVars nCols : Nat) (es : List SnapEntry) :
    (processEntries (initialSnapState nVars nCols) es).rows.length = es.length ∧
    (∀ r ∈ (processEntries (initialSnapState nVars nCols) es).rows, r.length = nVars) ∧
    (∀ i, i < es.length → ∀ v, v < nVars →
      ((processEntries (initialSnapState nVars nCols) es).rows.getD i []).getD v []
        = if (es.getD i ⟨[], []⟩).passes.getD v false
          then (es.getD i ⟨[], []⟩).values.getD v []
          else emptyInstance nCols) := by
  have hrows : (processEntries (initialSnapState nVars nCols) es).rows
      = es.map (expectedRow nVars nCols) := by
    have := processEntries_clean nVars nCols es (initialSnapState nVars nCols) rfl rfl
    simpa [initialSnapState] using this
  rw [hrows]
  refine ⟨by simp, ?_, ?_⟩
  · intro r hr
    obtain ⟨e, -, rfl⟩ := List.mem_map.mp hr
    simp [expectedRow]
  · intro i hi v hv
    have h1 : (es.map (expectedRow nVars nCols)).getD i []
        = expectedRow nVars nCols (es.getD i ⟨[], []⟩) := by
      rw [List.getD_eq_getElem _ _ (by simpa using hi), List.getElem_map,
        List.getD_eq_getElem _ _ hi]
    rw [h1]
    have hv2 : v < (expectedRow nVars nCols (es.getD i ⟨[], []⟩)).length := by
      simpa [expectedRow] using hv
    rw [List.getD_eq_getElem _ _ hv2]
    simp [expectedRow]

/-- Witness for claim C2 at a concrete run: two variations (nominal and one
tag), one column, three entries in which the second entry fails the filters
of variation 1 and the third fails the nominal filters. -/
theorem snapshot_variation_neutrality_witness :
    (processEntries (initialSnapState 2 1)
      [⟨[true, true], [[5], [6]]⟩, ⟨[true, false], [[7], [8]]⟩,
        ⟨[false, true], [[9], [10]]⟩]).rows.length = 3 ∧
    ((processEntries (initialSnapState 2 1)
      [⟨[true, true], [[5], [6]]⟩, ⟨[true, false], [[7], [8]]⟩,
        ⟨[false, true], [[9], [10]]⟩]).rows.getD 1 []).getD 1 [] = emptyInstance 1 := by
  obtain ⟨h1, -, h3⟩ :=
    snapshot_variation_neutrality 2 1
      [⟨[true, true], [[5], [6]]⟩, ⟨[true, false], [[7], [8]]⟩,
        ⟨[false, true], [[9], [10]]⟩]
  refine ⟨h1, ?_⟩
  rw [h3 1 (by decide) 1 (by decide)]
  simp

/-- Helper: dot replacement distributes over list append. -/
theorem replaceDot_append (a b : BName) :
    ReplaceDotWithUnderscore (a ++ b)
      = ReplaceDotWithUnderscore a ++ ReplaceDotWithUnderscore b :=
  List.map_append _ a b

/-- Helper: dot replacement is idempotent. -/
theorem replaceDot_idem (s : BName) :
    ReplaceDotWithUnderscore (ReplaceDotWithUnderscore s) = ReplaceDotWithUnderscore s := by
  unfold ReplaceDotWithUnderscore
  rw [List.map_map]
  congr 1
  funext c
  by_cases h : c = '.'
  · subst h
    decide
  · simp [Function.comp, h]

/-- Claim C6: the snapshot with variations creates one stored branch per
pair of column and variation tag; the varied helper appends two underscores
and the variation name to every nominal output branch name, dots and colons
being replaced by underscores, so the branch of column c under variation v
is named by the convention c underscore underscore v; and every varied
branch stores the same column type as its nominal counterpart. -/
theorem varied_branch_names_and_types (bnames : List BName) (colTypes : List Nat)
    (variation : BName) (hlen : bnames.length = colTypes.length) :
    (MakeNew (mkNominalHelper bnames colTypes) variation).branches.length = bnames.length ∧
    (mkNominalHelper bnames colTypes).branches.length = bnames.length ∧
    ∀ i, i < bnames.length →
      ((MakeNew (mkNominalHelper bnames colTypes) variation).branches.getD i
          (OutBranch.mk [] 0)).name
        = conventionName (bnames.getD i []) variation ∧
      ((MakeNew (mkNominalHelper bnames colTypes) variation).branches.getD i
          (OutBranch.mk [] 0)).typeTag
        = ((mkNominalHelper bnames colTypes).branches.getD i (OutBranch.mk [] 0)).typeTag ∧
      ((mkNominalHelper bnames colTypes).branches.getD i (OutBranch.mk [] 0)).typeTag
        = colTypes.getD i 0 := by
  have hval : (MakeNew (mkNominalHelper bnames colTypes) variation).branches
      = List.zipWith (fun n t => OutBranch.mk (replaceColonWithUnderscore n) t)
          (((bnames.map ReplaceDotWithUnderscore).map
              (fun originalName => originalName ++ '_' :: '_' :: variation)).map
            ReplaceDotWithUnderscore)
          colTypes := rfl
  have hnom : (mkNominalHelper bnames colTypes).branches
      = List.zipWith (fun n t => OutBranch.mk (replaceColonWithUnderscore n) t)
          (bnames.map ReplaceDotWithUnderscore) colTypes := rfl
  have hlenv : (MakeNew (mkNominalHelper bnames colTypes) variation).branches.length
      = bnames.length := by
    rw [hval, List.length_zipWith]
    simp [hlen]
  have hlenn : (mkNominalHelper bnames colTypes).branches.length = bnames.length := by
    rw [hnom, List.length_zipWith]
    simp [hlen]
  refine ⟨hlenv, hlenn, ?_⟩
  intro i hi
  have hiv : i < (MakeNew (mkNominalHelper bnames colTypes) variation).branches.length := by
    rw [hlenv]
    exact hi
  have hin : i < (mkNominalHelper bnames colTypes).branches.length := by
    rw [hlenn]
    exact hi
  have hgv : (MakeNew (mkNominalHelper bnames colTypes) variation).branches.getD i
      (OutBranch.mk [] 0)
      = OutBranch.mk
          (replaceColonWithUnderscore (ReplaceDotWithUnderscore
            (ReplaceDotWithUnderscore (bnames.getD i []) ++ '_' :: '_' :: variation)))
          (colTypes.getD i 0) := by
    rw [List.getD_eq_getElem _ _ hiv]
    have hic : i < colTypes.length := by
      rw [← hlen]
      exact hi
    simp only [hval, List.getElem_zipWith, List.getElem_map]
    rw [List.getD_eq_getElem _ _ hi, List.getD_eq_getElem _ _ hic]
  have hgn : (mkNominalHelper bnames colTypes).branches.getD i (OutBranch.mk [] 0)
      = OutBranch.mk
          (replaceColonWithUnderscore (ReplaceDotWithUnderscore (bnames.getD i [])))
          (colTypes.getD i 0) := by
    rw [List.getD_eq_getElem _ _ hin]
    have hic : i < colTypes.length := by
      rw [← hlen]
      exact hi
    simp only [hnom, List.getElem_zipWith, List.getElem_map]
    rw [List.getD_eq_getElem _ _ hi, List.getD_eq_getElem _ _ hic]
  refine ⟨?_, ?_, ?_⟩
  · rw [hgv]
    show replaceColonWithUnderscore _ = conventionName _ _
    unfold conventionName
    rw [replaceDot_append, replaceDot_idem, ← replaceDot_append]
  · rw [hgv, hgn]
  · rw [hgn]

/-- Witness for claim C6 at the concrete test columns x and y of type tags 1
and 2 under variation tag xVar_0: the varied branches are named x__xVar_0
and y__xVar_0 and store the nominal types. -/
theorem varied_branch_names_and_types_witness :
    ((MakeNew (mkNominalHelper ["x".data, "y".data] [1, 2]) ("xVar_0".data)).branches.getD 0
        (OutBranch.mk [] 0)).name = "x__xVar_0".data ∧
    ((MakeNew (mkNominalHelper ["x".data, "y".data] [1, 2]) ("xVar_0".data)).branches.getD 1
        (OutBranch.mk [] 0)).typeTag = 2 := by
  obtain ⟨-, -, hall⟩ :=
    varied_branch_names_and_types ["x".data, "y".data] [1, 2] ("xVar_0".data) rfl
  obtain ⟨h0name, -, -⟩ := hall 0 (by decide)
  obtain ⟨-, h1tag, h1tag2⟩ := hall 1 (by decide)
  constructor
  · rw [h0name]
    decide
  · rw [h1tag, h1tag2]
    decide

/-- Helper: bit k of a packed word is the k-th stored flag. -/
theorem testBit_bitsToNat (bs : List Bool) (k : Nat) :
    Nat.testBit (bitsToNat bs) k = bs.getD k false := by
  induction bs generalizing k with
  | nil => simp [bitsToNat, Nat.zero_testBit]
  | cons b bs ih =>
      cases k with
      | zero =>
          rw [show bitsToNat (b :: bs) = (if b then 1 else 0) + 2 * bitsToNat bs from rfl,
            Nat.testBit_zero]
          cases b <;> simp [Nat.add_mul_mod_self_left]
      | succ k =>
          rw [show bitsToNat (b :: bs) = (if b then 1 else 0) + 2 * bitsToNat bs from rfl,
            Nat.testBit_succ]
          have hdiv : ((if b then 1 else 0) + 2 * bitsToNat bs) / 2 = bitsToNat bs := by
            cases b
            · show (0 + 2 * bitsToNat bs) / 2 = bitsToNat bs
              omega
            · show (1 + 2 * bitsToNat bs) / 2 = bitsToNat bs
              omega
          rw [hdiv]
          exact ih k

/-- Helper: a packed word of n bits is below 2 to the n. -/
theorem bitsToNat_lt (bs : List Bool) : bitsToNat bs < 2 ^ bs.length := by
  induction bs with
  | nil => simp [bitsToNat]
  | cons b bs ih =>
      have hb : (if b then 1 else 0) ≤ 1 := by cases b <;> simp
      simp only [show bitsToNat (b :: bs) = (if b then 1 else 0) + 2 * bitsToNat bs from rfl,
        List.length_cons, pow_succ]
      omega

/-- Claim C7: with more variation slots than fit one machine word (131 slots
for nominal plus 130 tags give three words), the bitmask bookkeeping chains
fixed-width 64-bit words, each below 2 to the 64; the side table sends slot
k to its mask branch (named by the R_rdf_mask convention) and bit index k
mod 64; and for every entry, the bit at the mapped index is set exactly when
that variation passed the cuts for that entry. -/
theorem bitmask_encoding (treename : BName) (passes : List Bool) (k : Nat)
    (hk : k < passes.length) :
    (maskWords passes).length = (passes.length + 63) / 64 ∧
    (∀ w ∈ maskWords passes, w < 2 ^ 64) ∧
    bitmaskMapping treename k = (maskBranchName treename (k / 64), k % 64) ∧
    Nat.testBit ((maskWords passes).getD (k / 64) 0) (k % 64) = passes.getD k false ∧
    (maskWords (List.replicate 131 true)).length = 3 := by
  refine ⟨by simp [maskWords], ?_, rfl, ?_, by simp [maskWords]⟩
  · intro w hw
    obtain ⟨i, -, rfl⟩ := List.mem_map.mp hw
    have h1 : ((passes.drop (i * 64)).take 64).length ≤ 64 := by
      rw [List.length_take]
      exact min_le_left _ _
    exact Nat.lt_of_lt_of_le (bitsToNat_lt _)
      (Nat.pow_le_pow_right (by decide) h1)
  · have hq : k / 64 < (passes.length + 63) / 64 := by
      omega
    have hq2 : k / 64 < (maskWords passes).length := by
      rw [show (maskWords passes).length = (passes.length + 63) / 64 from by simp [maskWords]]
      exact hq
    have hg : (maskWords passes).getD (k / 64) 0
        = bitsToNat ((passes.drop (k / 64 * 64)).take 64) := by
      rw [List.getD_eq_getElem _ _ hq2]
      simp only [maskWords, List.getElem_map, List.getElem_range]
    rw [hg, testBit_bitsToNat]
    have hmod : k % 64 < ((passes.drop (k / 64 * 64)).take 64).length := by
      rw [List.length_take, List.length_drop]
      omega
    rw [List.getD_eq_getElem _ _ hmod, List.getElem_take, List.getElem_drop,
      List.getD_eq_getElem _ _ hk]
    congr 1
    omega

/-- Witness for claim C7 at a concrete entry with 131 variation slots of
which exactly the multiples of three pass, checked at slot 100. -/
theorem bitmask_encoding_witness :
    Nat.testBit
        ((maskWords ((List.range 131).map (fun k => k % 3 == 0))).getD (100 / 64) 0)
        (100 % 64)
      = ((List.range 131).map (fun k => k % 3 == 0)).getD 100 false ∧
    (maskWords (List.replicate 131 true)).length = 3 := by
  obtain ⟨-, -, -, h4, h5⟩ :=
    bitmask_encoding ("testTree".data) ((List.range 131).map (fun k => k % 3 == 0)) 100
      (by simp)
  exact ⟨h4, h5⟩

/-- Claim C8: when the snapshot output file cannot be created or opened, the
constructor of the snapshot action raises a runtime error naming the output
file synchronously, at construction time; a successful construction has
processed no entry yet. -/
theorem snapshot_ctor_error (filename : BName) (r : SnapshotCtorResult) :
    snapshotConstruct false filename
      = Except.error ("Snapshot: could not create output file ".data ++ filename) ∧
    (∀ msg : BName, snapshotConstruct false filename = Except.error msg →
      filename.IsSuffix msg) ∧
    (snapshotConstruct true filename = Except.ok r → r.entriesProcessed = 0) := by
  refine ⟨rfl, ?_, ?_⟩
  · intro msg hmsg
    have h0 : (Except.error ("Snapshot: could not create output file ".data ++ filename)
        : Except BName SnapshotCtorResult) = Except.error msg := hmsg
    have h1 := Except.error.inj h0
    rw [← h1]
    exact ⟨"Snapshot: could not create output file ".data, rfl⟩
  · intro hok
    have h0 : (Except.ok { entriesProcessed := 0 }
        : Except BName SnapshotCtorResult) = Except.ok r := hok
    have h2 := Except.ok.inj h0
    rw [← h2]

/-- Witness for claim C8 at the concrete file name of the test suite. -/
theorem snapshot_ctor_error_witness :
    snapshotConstruct false ("VarySnapshot.root".data)
      = Except.error
          ("Snapshot: could not create output file ".data ++ "VarySnapshot.root".data) ∧
    "VarySnapshot.root".data.IsSuffix
      ("Snapshot: could not create output file VarySnapshot.root".data) := by
  obtain ⟨h1, h2, -⟩ :=
    snapshot_ctor_error ("VarySnapshot.root".data) (SnapshotCtorResult.mk 0)
  refine ⟨h1, ?_⟩
  have := h2 ("Snapshot: could not create output file ".data ++ "VarySnapshot.root".data) h1
  simpa using this

/-- Claim C10: when the last reference to the shared file handle is released
with a tree still present, the tree is flushed with AutoSave flushbaskets,
and the data source of the output loop manager is set to the just-written
tree and file, so that reading the new data source back yields exactly the
rows that were written; releasing a reference that is not the last one has
no effect. -/
theorem fileHandle_flush_and_connect (fh : FileHandleState) (fs : FileStore)
    (ds : Nat → Option (BName × BName)) (tname : BName) (rows : List SnapRow) (mgr : Nat)
    (htree : fh.fTree = some (tname, rows)) (hmgr : fh.fOutputLoopManager = some mgr) :
    ∀ refCount : Nat, 1 ≤ refCount →
      (refCount = 1 →
        ∃ out : FileHandleDtorOutcome,
          (releaseHandleRef refCount fh fs ds).2 = some out ∧
          out.autoSaveCalls = [(tname, "flushbaskets".data)] ∧
          out.dataSourceOf mgr
            = some ((if fh.fDirectoryName.isEmpty then tname
                else fh.fDirectoryName ++ '/' :: tname), fh.fFileName) ∧
          out.store.read (fh.fFileName,
              (if fh.fDirectoryName.isEmpty then tname
                else fh.fDirectoryName ++ '/' :: tname))
            = some rows) ∧
      (2 ≤ refCount →
        (releaseHandleRef refCount fh fs ds).2 = none ∧
        (releaseHandleRef refCount fh fs ds).1 = refCount - 1) := by
  intro refCount hrc
  constructor
  · intro h1
    subst h1
    refine ⟨destructFileHandle fh fs ds, rfl, ?_, ?_, ?_⟩
    · unfold destructFileHandle
      rw [htree]
    · unfold destructFileHandle
      rw [htree]
      simp only [hmgr]
      simp
    · unfold destructFileHandle
      rw [htree]
      simp only [FileStore.read, FileStore.write, List.find?_cons]
      simp
  · intro h2
    have hne : ¬ refCount = 1 := by omega
    unfold releaseHandleRef
    rw [if_neg hne]
    exact ⟨rfl, rfl⟩

/-- Witness for claim C10 at a concrete handle writing tree t with one row
into file out.root for loop manager 7, released from reference counts 1 and
2. -/
theorem fileHandle_flush_and_connect_witness :
    (∃ out : FileHandleDtorOutcome,
      (releaseHandleRef 1
          (FileHandleState.mk (some ("t".data, [[[3]]])) ("out.root".data) [] (some 7))
          (FileStore.mk []) (fun _ => none)).2 = some out ∧
      out.autoSaveCalls = [("t".data, "flushbaskets".data)] ∧
      out.dataSourceOf 7 = some ("t".data, "out.root".data) ∧
      out.store.read ("out.root".data, "t".data) = some [[[3]]]) ∧
    (releaseHandleRef 2
        (FileHandleState.mk (some ("t".data, [[[3]]])) ("out.root".data) [] (some 7))
        (FileStore.mk []) (fun _ => none)).2 = none := by
  obtain ⟨hlast, hrest⟩ :=
    fileHandle_flush_and_connect
      (FileHandleState.mk (some ("t".data, [[[3]]])) ("out.root".data) [] (some 7))
      (FileStore.mk []) (fun _ => none) ("t".data) [[[3]]] 7 rfl rfl 1 (by decide)
  obtain ⟨hlast2, hrest2⟩ :=
    fileHandle_flush_and_connect
      (FileHandleState.mk (some ("t".data, [[[3]]])) ("out.root".data) [] (some 7))
      (FileStore.mk []) (fun _ => none) ("t".data) [[[3]]] 7 rfl rfl 2 (by decide)
  obtain ⟨out, ho1, ho2, ho3, ho4⟩ := hlast rfl
  refine ⟨⟨out, ho1, ho2, ?_, ?_⟩, (hrest2 (by decide)).1⟩
  · simpa using ho3
  · simpa using ho4

end RDFCore
